import Mathlib

/-!
Verification of the OCR-based file-renaming pipeline (src/rename_image.py).

The program's pure core is embedded shallowly:

* `normalize_pattern`, `find_pattern_in_text` and the regex constant
  `REGEX_PATTERN = r"(MT_PM_[\w_]+)"` are translated into functions on
  `String` / `List Char`, with Python's regex semantics (anchoring,
  greediness, the `\w` class, `.` not matching a newline) spelled out.
* `get_unique_destination_path` probes an abstract filesystem, modelled as
  the list of paths that currently exist; the unbounded Python `while` loop
  is given fuel `fs.length + 1`, which a pigeonhole argument below proves
  sufficient, so the embedded function agrees with the loop on every input.
* the per-item loop of `process_project_folder` is embedded as a state
  machine on that filesystem model; the external OCR capability and the
  copy primitive (spec section 1 treats both as external collaborators) are
  oracles carried by the item: the recognized text, or `none` when the
  capability raises, and a flag telling whether the copy raises.
-/

/-- Translation table `str.maketrans("IiLlOo", "111100")` used by
`normalize_pattern` (src/rename_image.py line 62): the recognition-confusable
characters `I`, `i`, `L`, `l` become `1` and `O`, `o` become `0`; every other
character is left alone. -/
def correctChar (c : Char) : Char :=
  if c = 'I' ∨ c = 'i' ∨ c = 'L' ∨ c = 'l' then '1'
  else if c = 'O' ∨ c = 'o' then '0'
  else c

/-- Reassembly step of `normalize_pattern`: it receives the version run (the
maximal non-underscore run after the anchored `MT_PM_V`) and what follows that
run. The regex match succeeded exactly when the run is nonempty and an
underscore follows it, and then `f"{prefix}{normalized_version}{suffix}"` is
rebuilt, group 3 being the underscore plus the rest cut at the first newline;
in every other case the input comes back unchanged. -/
def normalizeRebuild (pattern : String) (version_part : List Char) :
    List Char → String
  | [] => pattern
  | _ :: t =>
    if version_part = [] then pattern
    else
      String.mk ("MT_PM_V".data ++ version_part.map correctChar ++
        '_' :: t.takeWhile (fun c => c ≠ '\n'))

/-- Shallow embedding of `normalize_pattern` (src/rename_image.py lines 44-71).
`re.match(r"(MT_PM_V)([^_]+)(_.*)", pattern)` anchors at the start of the
string and succeeds exactly when the string starts with `MT_PM_V` followed by
a nonempty run of non-underscore characters and then an underscore: the greedy
`[^_]+` takes that maximal run (shrinking it would put a non-underscore in
front of the required `_`, and `[^_]` matches every character but `_`,
newlines included), and the greedy `.*` of group 3 extends to the first
newline or the end of the string, whichever comes first, because `.` does not
match `\n` without `re.DOTALL`. `re.match` only matches a prefix, so the
reassembled result drops whatever group 3 did not reach. -/
def normalize_pattern (pattern : String) : String :=
  if pattern.data.take 7 = "MT_PM_V".data then
    normalizeRebuild pattern ((pattern.data.drop 7).takeWhile (fun c => c ≠ '_'))
      ((pattern.data.drop 7).dropWhile (fun c => c ≠ '_'))
  else pattern

/-- The ASCII word characters: letters, digits and the underscore. This is the
`[A-Za-z0-9_]` set the spec describes. -/
def asciiWordChar (c : Char) : Bool :=
  ('A' ≤ c && c ≤ 'Z') || ('a' ≤ c && c ≤ 'z') || ('0' ≤ c && c ≤ '9') || c = '_'

/-- The non-ASCII word characters of the Latin-1 supplement block. Python's
`re` compiles `\w` over `str` with Unicode semantics: a character is a word
character when it is alphanumeric in Unicode or an underscore, which on
U+0080..U+00FF means the ordinal indicators U+00AA and U+00BA, the micro sign
U+00B5, the superscript digits U+00B2, U+00B3, U+00B9, the vulgar fractions
U+00BC..U+00BE, and the Latin-1 letters U+00C0..U+00FF less the two operators
× (U+00D7) and ÷ (U+00F7). Texts in this development stay below U+0100, so
code points above the block are not carried. -/
def latin1WordChar (c : Char) : Bool :=
  c.toNat = 0xAA || c.toNat = 0xB2 || c.toNat = 0xB3 || c.toNat = 0xB5 ||
  c.toNat = 0xB9 || c.toNat = 0xBA || c.toNat = 0xBC || c.toNat = 0xBD ||
  c.toNat = 0xBE || (0xC0 ≤ c.toNat && c.toNat ≤ 0xD6) ||
  (0xD8 ≤ c.toNat && c.toNat ≤ 0xF6) || (0xF8 ≤ c.toNat && c.toNat ≤ 0xFF)

/-- One character of the class `[\w_]` of `REGEX_PATTERN`
(src/rename_image.py line 14); the extra `_` inside the class is redundant
since `\w` already contains it. -/
def isWordChar (c : Char) : Bool :=
  asciiWordChar c || latin1WordChar c

/-- The regex `MT_PM_[\w_]+` applied at one fixed position: the literal
`MT_PM_` must stand here, followed by at least one word character; the greedy
`+` takes the maximal word-character run (nothing follows it in the pattern,
so no backtracking shortens the run). -/
def matchAt (cs : List Char) : Option (List Char) :=
  if cs.take 6 = "MT_PM_".data ∧ (cs.drop 6).takeWhile isWordChar ≠ [] then
    some ("MT_PM_".data ++ (cs.drop 6).takeWhile isWordChar)
  else none

/-- `re.search` semantics: try the pattern at position 0, 1, 2, ... and return
the match at the first position where one exists. -/
def searchData : List Char → Option (List Char)
  | [] => none
  | c :: cs =>
    if (matchAt (c :: cs)).isSome then matchAt (c :: cs)
    else searchData cs

/-- Shallow embedding of `find_pattern_in_text` (src/rename_image.py lines
73-78): `re.search(REGEX_PATTERN, text)` and, on success, `match.group(1)`,
which is the whole match since the single group spans the pattern. -/
def find_pattern_in_text (text : String) : Option String :=
  (searchData text.data).map String.mk

/-- Spec-side identifier grammar (spec section 4.1): the fixed literal
followed by one or more word characters. -/
def isIdentMatch (m : List Char) : Prop :=
  ∃ w, m = "MT_PM_".data ++ w ∧ w ≠ [] ∧ ∀ c ∈ w, isWordChar c = true

/-- Spec-side: the identifier string `m` matches the text at position `i`. -/
def identMatchAt (cs : List Char) (i : Nat) (m : List Char) : Prop :=
  (∃ rest, cs.drop i = m ++ rest) ∧ isIdentMatch m

/-- Modelled from the spec: `os.path.join` for the usual shapes the program
builds (a directory with no trailing separator joined to a plain file name):
the two parts separated by one `/`. -/
def pathJoin (directory file : String) : String :=
  directory ++ "/" ++ file

/-- The k-th path the collision loop of `get_unique_destination_path` probes:
`f"{new_name}{extension}"` first, then `f"{new_name}_{counter}{extension}"`
for counter = 1, 2, 3, ... -/
def candidate (base_path new_name extension : String) (k : Nat) : String :=
  if k = 0 then pathJoin base_path (new_name ++ extension)
  else pathJoin base_path (new_name ++ "_" ++ Nat.repr k ++ extension)

/-- The `while os.path.exists(destination_path)` loop of
`get_unique_destination_path`, probing candidates `k`, `k+1`, ... against the
filesystem `fs` (the list of paths that exist) and returning the first free
one. The loop carries fuel; `resolveLoop_eq_of_least` below shows the fuel
passed by `get_unique_destination_path` is never exhausted, so the embedding
agrees with the unbounded Python loop. -/
def resolveLoop (fs : List String) (base_path new_name extension : String) :
    Nat → Nat → String
  | k, 0 => candidate base_path new_name extension k
  | k, fuel + 1 =>
    if candidate base_path new_name extension k ∈ fs then
      resolveLoop fs base_path new_name extension (k + 1) fuel
    else candidate base_path new_name extension k

/-- Shallow embedding of `get_unique_destination_path` (src/rename_image.py
lines 80-91) over the filesystem model `fs`. -/
def get_unique_destination_path (fs : List String)
    (base_path new_name extension : String) : String :=
  resolveLoop fs base_path new_name extension 0 (fs.length + 1)

/-- Value of a decimal digit string, used only to invert `Nat.repr`. -/
def decDigitsVal (l : List Char) : Nat :=
  l.foldl (fun a c => a * 10 + (c.toNat - 48)) 0

/-- Extension part of `os.path.splitext(filename)[1]` for a plain file name
(no path separators): the suffix that starts at the last dot, provided at
least one character before that dot is not itself a dot (a leading run of
dots marks a hidden file, not an extension). -/
def splitextExt (name : String) : String :=
  let rev := name.data.reverse
  match rev.dropWhile (fun c => c ≠ '.') with
  | [] => ""
  | _ :: before =>
    if before.any (fun c => c ≠ '.') then
      String.mk ('.' :: (rev.takeWhile (fun c => c ≠ '.')).reverse)
    else ""

/-- One image of the batch, as the loop of `process_project_folder` sees it:
its path under the input directory, its base name, and the two external
oracles of spec section 1: the text the OCR capability recognizes (`none`
when the capability raises) and whether `shutil.copy2` raises for it. -/
structure ImageItem where
  path : String
  filename : String
  ocr : Option String
  copyFails : Bool

/-- Effect of `shutil.move(src, dst)` on the filesystem model: the source
path stops existing and the destination starts existing. -/
def moveFile (fs : List String) (src dst : String) : List String :=
  dst :: fs.filter (fun p => p ≠ src)

/-- Effect of `shutil.copy2(src, dst)` on the filesystem model: the
destination starts existing and the source is untouched. -/
def copyFile (fs : List String) (dst : String) : List String :=
  dst :: fs

/-- The `except` handler of the item loop (src/rename_image.py lines 153-158):
move the item into the error directory under its own file name, but only when
its source still exists; otherwise do nothing to the filesystem. -/
def errorMove (errDir : String) (fs : List String) (it : ImageItem) :
    List String :=
  if it.path ∈ fs then moveFile fs it.path (pathJoin errDir it.filename)
  else fs

/-- One iteration of the loop of `process_project_folder` (src/rename_image.py
lines 131-158): extract text (an exception lands in the handler), search for
the identifier; when found, normalize it, resolve a collision-free destination
under the output directory using the item's own extension and copy (an
exception during the copy lands in the handler); when not found, move the item
into the error directory. Returns the new filesystem and whether the success
branch ran. -/
def processItem (outDir errDir : String) (fs : List String) (it : ImageItem) :
    List String × Bool :=
  match it.ocr with
  | none => (errorMove errDir fs it, false)
  | some extracted_text =>
    match find_pattern_in_text extracted_text with
    | some initial_pattern =>
      let new_name_base := normalize_pattern initial_pattern
      let destination_path :=
        get_unique_destination_path fs outDir new_name_base
          (splitextExt it.filename)
      if it.copyFails then (errorMove errDir fs it, false)
      else (copyFile fs destination_path, true)
    | none => (moveFile fs it.path (pathJoin errDir it.filename), false)

/-- The batch loop of `process_project_folder`: items in discovery order, the
filesystem threaded through, the two outcome counters carried along; the
success branch bumps `success_count`, every other outcome bumps `fail_count`. -/
def processAll (outDir errDir : String) :
    List ImageItem → List String → Nat → Nat → List String × Nat × Nat
  | [], fs, s, f => (fs, s, f)
  | it :: rest, fs, s, f =>
    let r := processItem outDir errDir fs it
    if r.2 then processAll outDir errDir rest r.1 (s + 1) f
    else processAll outDir errDir rest r.1 s (f + 1)

/-- Shallow embedding of the counting loop of `process_project_folder`
(src/rename_image.py lines 117-161): both counters start at zero and the
items are processed in order. Directory setup, discovery and logging are
outside the model; `items` is what `find_image_files` returned. -/
def process_project_folder (outDir errDir : String) (items : List ImageItem)
    (fs : List String) : List String × Nat × Nat :=
  processAll outDir errDir items fs 0 0

/-- Whether an item takes the success branch: its OCR text is produced, the
identifier is found in it, and the copy does not raise. This does not depend
on the filesystem. -/
def itemSucceeds (it : ImageItem) : Bool :=
  match it.ocr with
  | none => false
  | some extracted_text =>
    (find_pattern_in_text extracted_text).isSome && !it.copyFails

/-! ## List helpers -/

/-- A `takeWhile` over a list that satisfies the predicate up to a failing
element stops exactly at that element. -/
theorem takeWhile_append_all {α : Type} (p : α → Bool) (w : List α) (c : α)
    (r : List α) (hw : ∀ x ∈ w, p x = true) (hc : p c = false) :
    (w ++ c :: r).takeWhile p = w := by
  induction w with
  | nil => simp [List.takeWhile, hc]
  | cons a w ih =>
    have ha : p a = true := hw a (by simp)
    simp only [List.cons_append, List.takeWhile, ha]
    exact congrArg (a :: ·) (ih fun x hx => hw x (by simp [hx]))

/-- The `dropWhile` companion of `takeWhile_append_all`. -/
theorem dropWhile_append_all {α : Type} (p : α → Bool) (w : List α) (c : α)
    (r : List α) (hw : ∀ x ∈ w, p x = true) (hc : p c = false) :
    (w ++ c :: r).dropWhile p = c :: r := by
  induction w with
  | nil => simp [List.dropWhile, hc]
  | cons a w ih =>
    have ha : p a = true := hw a (by simp)
    simp only [List.cons_append, List.dropWhile, ha]
    exact ih fun x hx => hw x (by simp [hx])

/-- The head of a nonempty `dropWhile` fails the predicate. -/
theorem dropWhile_head_false {α : Type} (p : α → Bool) (l : List α) (c : α)
    (r : List α) (h : l.dropWhile p = c :: r) : p c = false := by
  induction l with
  | nil => simp [List.dropWhile] at h
  | cons a l ih =>
    by_cases ha : p a = true
    · exact ih (by simpa [List.dropWhile, ha] using h)
    · have ha' : p a = false := by
        cases hpa : p a
        · rfl
        · exact absurd hpa ha
      rw [List.dropWhile, ha'] at h
      cases h
      exact ha'

/-- A list whose elements all satisfy the predicate is its own `takeWhile`. -/
theorem takeWhile_all_eq_self {α : Type} (p : α → Bool) (l : List α)
    (hl : ∀ x ∈ l, p x = true) : l.takeWhile p = l := by
  induction l with
  | nil => rfl
  | cons a l ih =>
    have ha : p a = true := hl a (by simp)
    simp only [List.takeWhile, ha]
    exact congrArg (a :: ·) (ih fun x hx => hl x (by simp [hx]))

/-! ## The normalizer: characterization -/

/-- When the input has the three-part shape the regex of `normalize_pattern`
looks for, the output is the prefix, the translated version run, and the
remainder cut at its first newline. -/
theorem normalize_pattern_match (p : String) (seg rem : List Char)
    (hp : p.data = "MT_PM_V".data ++ (seg ++ '_' :: rem))
    (hne : seg ≠ []) (hseg : ∀ c ∈ seg, c ≠ '_') :
    (normalize_pattern p).data =
      "MT_PM_V".data ++ seg.map correctChar ++
        '_' :: rem.takeWhile (fun c => c ≠ '\n') := by
  have hlen : ("MT_PM_V".data).length = 7 := by decide
  have htake : p.data.take 7 = "MT_PM_V".data := by
    rw [hp, List.take_append_of_le_length (by omega), List.take_of_length_le (by omega)]
  have hdrop : p.data.drop 7 = seg ++ '_' :: rem := by
    rw [hp, List.drop_append_of_le_length (by omega), List.drop_of_length_le (by omega),
      List.nil_append]
  have hw : ∀ x ∈ seg, (fun c => decide (c ≠ '_')) x = true := by
    intro x hx
    simpa using hseg x hx
  have hc : (fun c => decide (c ≠ '_')) '_' = false := by decide
  have htw : (p.data.drop 7).takeWhile (fun c => c ≠ '_') = seg := by
    rw [hdrop]; exact takeWhile_append_all _ seg '_' rem hw hc
  have hdw : (p.data.drop 7).dropWhile (fun c => c ≠ '_') = '_' :: rem := by
    rw [hdrop]; exact dropWhile_append_all _ seg '_' rem hw hc
  unfold normalize_pattern
  rw [if_pos htake, htw, hdw]
  simp only [normalizeRebuild, if_neg hne]

/-- When no such three-part decomposition of the input exists, the input is
returned unchanged. -/
theorem normalize_pattern_unmatched (p : String)
    (h : ∀ seg rem : List Char,
      ¬(p.data = "MT_PM_V".data ++ (seg ++ '_' :: rem) ∧ seg ≠ [] ∧
        ∀ c ∈ seg, c ≠ '_')) :
    normalize_pattern p = p := by
  unfold normalize_pattern
  by_cases htake : p.data.take 7 = "MT_PM_V".data
  · rw [if_pos htake]
    cases hdw : (p.data.drop 7).dropWhile (fun c => c ≠ '_') with
    | nil => simp only [normalizeRebuild]
    | cons c t =>
      by_cases hseg : (p.data.drop 7).takeWhile (fun c => c ≠ '_') = []
      · simp only [normalizeRebuild, if_pos hseg]
      · exfalso
        have hc : c = '_' := by
          simpa using dropWhile_head_false _ _ _ _ hdw
        have hdecomp : p.data = "MT_PM_V".data ++
            ((p.data.drop 7).takeWhile (fun x => x ≠ '_') ++ '_' :: t) := by
          conv_lhs => rw [← List.take_append_drop 7 p.data]
          rw [htake]
          congr 1
          conv_lhs =>
            rw [← List.takeWhile_append_dropWhile
              (p := fun x => decide (x ≠ '_')) (l := p.data.drop 7)]
          rw [hdw, hc]
        refine h _ t ⟨hdecomp, hseg, ?_⟩
        intro x hx
        simpa using List.mem_takeWhile_imp hx
  · rw [if_neg htake]

/-- Every run of `normalize_pattern` either returns its input unchanged or
rewrites one three-part decomposition of it. -/
theorem normalize_pattern_cases (p : String) :
    normalize_pattern p = p ∨
    ∃ seg rem : List Char,
      p.data = "MT_PM_V".data ++ (seg ++ '_' :: rem) ∧ seg ≠ [] ∧
      (∀ c ∈ seg, c ≠ '_') ∧
      (normalize_pattern p).data =
        "MT_PM_V".data ++ seg.map correctChar ++
          '_' :: rem.takeWhile (fun c => c ≠ '\n') := by
  by_cases htake : p.data.take 7 = "MT_PM_V".data
  · cases hdw : (p.data.drop 7).dropWhile (fun c => c ≠ '_') with
    | nil =>
      left
      unfold normalize_pattern
      rw [if_pos htake, hdw]
      simp only [normalizeRebuild]
    | cons c t =>
      by_cases hseg : (p.data.drop 7).takeWhile (fun c => c ≠ '_') = []
      · left
        unfold normalize_pattern
        rw [if_pos htake, hdw]
        simp only [normalizeRebuild, if_pos hseg]
      · right
        have hc : c = '_' := by
          simpa using dropWhile_head_false _ _ _ _ hdw
        have hmem : ∀ x ∈ (p.data.drop 7).takeWhile (fun c => c ≠ '_'), x ≠ '_' := by
          intro x hx
          simpa using List.mem_takeWhile_imp hx
        have hdecomp : p.data = "MT_PM_V".data ++
            ((p.data.drop 7).takeWhile (fun x => x ≠ '_') ++ '_' :: t) := by
          conv_lhs => rw [← List.take_append_drop 7 p.data]
          rw [htake]
          congr 1
          conv_lhs =>
            rw [← List.takeWhile_append_dropWhile
              (p := fun x => decide (x ≠ '_')) (l := p.data.drop 7)]
          rw [hdw, hc]
        exact ⟨_, t, hdecomp, hseg, hmem,
          normalize_pattern_match p _ t hdecomp hseg hmem⟩
  · left
    unfold normalize_pattern
    rw [if_neg htake]

/-- The translation table never produces an underscore from a non-underscore. -/
theorem correctChar_ne_underscore (c : Char) (h : c ≠ '_') :
    correctChar c ≠ '_' := by
  unfold correctChar
  split_ifs with h1 h2
  · decide
  · decide
  · exact h

/-- The translation table is idempotent: its digits are fixed points. -/
theorem correctChar_idem (c : Char) :
    correctChar (correctChar c) = correctChar c := by
  have h : correctChar c = '1' ∨ correctChar c = '0' ∨ correctChar c = c := by
    unfold correctChar
    split_ifs <;> simp
  rcases h with h | h | h
  · rw [h]; decide
  · rw [h]; decide
  · rw [h]; exact h

/-- A takeWhile result is unchanged by a second takeWhile with the same
predicate. -/
theorem takeWhile_take_self {α : Type} (p : α → Bool) (l : List α) :
    (l.takeWhile p).takeWhile p = l.takeWhile p :=
  takeWhile_all_eq_self p _ fun _ hx => List.mem_takeWhile_imp hx

/-- C7: `normalize_pattern` is idempotent — applying it to its own output
changes nothing, because the rewritten version run contains no underscore and
is again nonempty, the digits the table produces are its fixed points, and
the rebuilt remainder contains no newline. -/
theorem claim_C7_normalize_idempotent (s : String) :
    normalize_pattern (normalize_pattern s) = normalize_pattern s := by
  rcases normalize_pattern_cases s with h | ⟨seg, rem, hp, hne, hseg, hres⟩
  · rw [h]; exact h
  · have hne2 : seg.map correctChar ≠ [] := by
      simpa using hne
    have hseg2 : ∀ c ∈ seg.map correctChar, c ≠ '_' := by
      intro c hc
      rcases List.mem_map.mp hc with ⟨x, hx, rfl⟩
      exact correctChar_ne_underscore _ (hseg x hx)
    have hp2 : (normalize_pattern s).data = "MT_PM_V".data ++
        (seg.map correctChar ++ '_' :: rem.takeWhile (fun c => c ≠ '\n')) := by
      rw [hres, List.append_assoc]
    have h2 := normalize_pattern_match (normalize_pattern s) _ _ hp2 hne2 hseg2
    have hmm : (seg.map correctChar).map correctChar = seg.map correctChar := by
      rw [List.map_map]
      exact List.map_congr_left fun x _ => correctChar_idem x
    apply String.ext
    rw [h2, hres, hmm, takeWhile_take_self]

/-- C2 (amended): when the input decomposes as the prefix `MT_PM_V`, a
nonempty underscore-free version segment, an underscore and a remainder,
`normalize_pattern` rewrites the version segment through the translation
table and keeps the rest — except that the remainder is kept only up to its
first newline, which the group `(_.*)` of the source regex cannot cross;
when no such decomposition exists the input is returned unchanged. -/
theorem claim_C2_normalize_three_part (p : String) :
    (∀ seg rem : List Char,
      p.data = "MT_PM_V".data ++ (seg ++ '_' :: rem) → seg ≠ [] →
      (∀ c ∈ seg, c ≠ '_') →
      (normalize_pattern p).data =
        "MT_PM_V".data ++ seg.map correctChar ++
          '_' :: rem.takeWhile (fun c => c ≠ '\n')) ∧
    ((∀ seg rem : List Char,
      ¬(p.data = "MT_PM_V".data ++ (seg ++ '_' :: rem) ∧ seg ≠ [] ∧
        ∀ c ∈ seg, c ≠ '_')) → normalize_pattern p = p) :=
  ⟨fun seg rem hp hne hseg => normalize_pattern_match p seg rem hp hne hseg,
   normalize_pattern_unmatched p⟩

/-- C2 counterexample: on `"MT_PM_VI_A\nB"` the claim predicts
`"MT_PM_V1_A\nB"` (all remainder characters untouched), but the code drops
the remainder from its first newline and returns `"MT_PM_V1_A"`. -/
theorem claim_C2_counterexample :
    normalize_pattern "MT_PM_VI_A\nB" = "MT_PM_V1_A" ∧
    normalize_pattern "MT_PM_VI_A\nB" ≠ "MT_PM_V1_A\nB" := by
  constructor
  · decide
  · decide

/-- A takeWhile is never longer than its list. -/
theorem length_takeWhile_le {α : Type} (p : α → Bool) (l : List α) :
    (l.takeWhile p).length ≤ l.length := by
  induction l with
  | nil => simp
  | cons a l ih =>
    by_cases ha : p a = true
    · simpa [List.takeWhile, ha] using ih
    · have ha' : p a = false := by
        cases hpa : p a
        · rfl
        · exact absurd hpa ha
      simp [List.takeWhile, ha']

/-- C10 (amended): `normalize_pattern` never lengthens its input, and it
preserves the length whenever the input contains no newline; a newline in the
remainder of a matched input is where group 3 of the source regex stops, so
everything after it is dropped and the output is then strictly shorter. -/
theorem claim_C10_normalize_length (s : String) :
    (normalize_pattern s).length ≤ s.length ∧
    ('\n' ∉ s.data → (normalize_pattern s).length = s.length) := by
  rcases normalize_pattern_cases s with h | ⟨seg, rem, hp, hne, hseg, hres⟩
  · rw [h]
    exact ⟨le_refl _, fun _ => rfl⟩
  · have h7 : ("MT_PM_V".data).length = 7 := by decide
    have hslen : s.length = 7 + seg.length + 1 + rem.length := by
      have h0 : s.length = s.data.length := rfl
      rw [h0, hp]
      simp [List.length_append, h7]
      omega
    have hnlen : (normalize_pattern s).length =
        7 + seg.length + 1 + (rem.takeWhile (fun c => c ≠ '\n')).length := by
      have h0 : (normalize_pattern s).length = (normalize_pattern s).data.length := rfl
      rw [h0, hres]
      simp [List.length_append, h7]
      omega
    have htwle : (rem.takeWhile (fun c => c ≠ '\n')).length ≤ rem.length :=
      length_takeWhile_le _ _
    constructor
    · rw [hnlen, hslen]
      omega
    · intro hnl
      have hrem : rem.takeWhile (fun c => c ≠ '\n') = rem := by
        apply takeWhile_all_eq_self
        intro x hx
        have hxs : x ∈ s.data := by
          rw [hp]
          exact List.mem_append_right _ (List.mem_append_right _ (List.mem_cons_of_mem _ hx))
        simp only [decide_eq_true_eq]
        intro hxeq
        exact hnl (hxeq ▸ hxs)
      rw [hnlen, hslen, hrem]

/-- C10 counterexample: `"MT_PM_VO_X\nY"` has length 12 but its
normalization `"MT_PM_V0_X"` has length 10, so `normalize_pattern` is not
length-preserving. -/
theorem claim_C10_counterexample :
    (normalize_pattern "MT_PM_VO_X\nY").length ≠ ("MT_PM_VO_X\nY" : String).length := by
  decide

/-! ## The matcher: characterization of matchAt and searchData -/

/-- Unfolding equation of `matchAt` on success. -/
theorem matchAt_eq_some (cs m : List Char) (h : matchAt cs = some m) :
    cs.take 6 = "MT_PM_".data ∧ (cs.drop 6).takeWhile isWordChar ≠ [] ∧
    m = "MT_PM_".data ++ (cs.drop 6).takeWhile isWordChar := by
  unfold matchAt at h
  split_ifs at h with hcond
  exact ⟨hcond.1, hcond.2, (Option.some.inj h).symm⟩

/-- A successful `matchAt` splits its input as the match followed by a
remainder whose first character, if any, is not a word character. -/
theorem matchAt_decomp (cs m : List Char) (h : matchAt cs = some m) :
    ∃ post, cs = m ++ post ∧ (∀ c, post.head? = some c → isWordChar c = false) ∧
      m = "MT_PM_".data ++ (cs.drop 6).takeWhile isWordChar := by
  obtain ⟨htake, hne, hm⟩ := matchAt_eq_some cs m h
  refine ⟨(cs.drop 6).dropWhile isWordChar, ?_, ?_, hm⟩
  · calc cs = cs.take 6 ++ cs.drop 6 := (List.take_append_drop 6 cs).symm
      _ = "MT_PM_".data ++ cs.drop 6 := by rw [htake]
      _ = m ++ (cs.drop 6).dropWhile isWordChar := by
          conv_lhs =>
            rw [← List.takeWhile_append_dropWhile (p := isWordChar) (l := cs.drop 6)]
          rw [hm, List.append_assoc]
  · intro c hc
    cases hpost : (cs.drop 6).dropWhile isWordChar with
    | nil => rw [hpost] at hc; exact Option.noConfusion hc
    | cons a r =>
      rw [hpost] at hc
      have hca : a = c := by simpa using hc
      rw [← hca]
      exact dropWhile_head_false _ _ _ _ hpost

/-- A successful `matchAt` is a spec-side identifier match at position 0. -/
theorem identMatchAt_of_matchAt (cs m : List Char) (h : matchAt cs = some m) :
    identMatchAt cs 0 m := by
  obtain ⟨post, hsplit, _, hm⟩ := matchAt_decomp cs m h
  refine ⟨⟨post, by simpa using hsplit⟩, (cs.drop 6).takeWhile isWordChar, hm,
    (matchAt_eq_some cs m h).2.1, ?_⟩
  intro c hc
  exact List.mem_takeWhile_imp hc

/-- Conversely a spec-side identifier match at position 0 forces `matchAt` to
succeed (with the maximal run, which may extend the given match). -/
theorem matchAt_ne_none_of_ident (cs m : List Char) (h : identMatchAt cs 0 m) :
    matchAt cs ≠ none := by
  obtain ⟨⟨rest, hrest⟩, w, hw, hwne, hword⟩ := h
  have hcs : cs = "MT_PM_".data ++ (w ++ rest) := by
    rw [← List.append_assoc, ← hw]
    simpa using hrest
  have h6 : ("MT_PM_".data).length = 6 := by decide
  have htake : cs.take 6 = "MT_PM_".data := by
    rw [hcs, List.take_append_of_le_length (by omega), List.take_of_length_le (by omega)]
  have hdrop : cs.drop 6 = w ++ rest := by
    rw [hcs, List.drop_append_of_le_length (by omega), List.drop_of_length_le (by omega),
      List.nil_append]
  have hne : (cs.drop 6).takeWhile isWordChar ≠ [] := by
    rw [hdrop]
    cases w with
    | nil => exact absurd rfl hwne
    | cons a w2 =>
      have ha : isWordChar a = true := hword a (by simp)
      simp [List.takeWhile, ha]
  unfold matchAt
  rw [if_pos ⟨htake, hne⟩]
  simp

/-- Shifting a spec-side match over the head of the text. -/
theorem identMatchAt_drop (cs : List Char) (i : Nat) (m : List Char) :
    identMatchAt cs i m ↔ identMatchAt (cs.drop i) 0 m := by
  unfold identMatchAt
  rw [List.drop_zero]

/-- When the scan returns nothing, no position of the text carries a
spec-side identifier match. -/
theorem searchData_none (cs : List Char) (h : searchData cs = none) :
    ∀ i m, ¬ identMatchAt cs i m := by
  induction cs with
  | nil =>
    intro i m hm
    obtain ⟨⟨rest, hdrop⟩, w, hw, hwne, _⟩ := hm
    have hnil : m ++ rest = [] := by simpa using hdrop.symm
    have hmnil : m = [] := (List.append_eq_nil.mp hnil).1
    rw [hmnil] at hw
    exact absurd hw.symm (by simp)
  | cons c cs ih =>
    intro i m hm
    simp only [searchData] at h
    by_cases hma : (matchAt (c :: cs)).isSome = true
    · rw [if_pos hma] at h
      rw [h] at hma
      simp at hma
    · rw [if_neg hma] at h
      cases i with
      | zero =>
        exact matchAt_ne_none_of_ident _ _ hm (Option.not_isSome_iff_eq_none.mp hma)
      | succ i =>
        have hm2 : identMatchAt cs i m := by
          have := (identMatchAt_drop _ _ _).mp hm
          rw [List.drop_succ_cons] at this
          exact (identMatchAt_drop _ _ _).mpr this
        exact ih h i m hm2

/-- A successful scan is a `matchAt` at the first position where one
succeeds. -/
theorem searchData_some (cs m : List Char) (h : searchData cs = some m) :
    ∃ i, matchAt (cs.drop i) = some m ∧ ∀ j, j < i → matchAt (cs.drop j) = none := by
  induction cs with
  | nil => simp [searchData] at h
  | cons c cs ih =>
    simp only [searchData] at h
    by_cases hma : (matchAt (c :: cs)).isSome = true
    · rw [if_pos hma] at h
      exact ⟨0, by simpa using h, fun j hj => absurd hj (Nat.not_lt_zero j)⟩
    · rw [if_neg hma] at h
      rcases ih h with ⟨i, hi, hmin⟩
      refine ⟨i + 1, by simpa using hi, ?_⟩
      intro j hj
      cases j with
      | zero => simpa using Option.not_isSome_iff_eq_none.mp hma
      | succ j =>
        rw [List.drop_succ_cons]
        exact hmin j (by omega)

/-- On the ASCII range, the `\w` class is exactly `[A-Za-z0-9_]`. -/
theorem ascii_of_isWordChar (c : Char) (hw : isWordChar c = true)
    (hc : c.toNat ≤ 127) : asciiWordChar c = true := by
  have hw2 : asciiWordChar c = true ∨ latin1WordChar c = true := by
    simpa [isWordChar] using hw
  rcases hw2 with ha | hl
  · exact ha
  · exfalso
    simp only [latin1WordChar, Bool.or_eq_true, Bool.and_eq_true,
      decide_eq_true_eq] at hl
    rcases hl with (((((((((((h|h)|h)|h)|h)|h)|h)|h)|h)|h)|h)|h) <;> omega

/-- C3: if the text carries a spec-side identifier match anywhere, `find`
returns a match taken at the leftmost matching position, every other match
sitting at that position or later; if it carries none, `find` returns
absent — and as a total function it never raises. -/
theorem claim_C3_find_leftmost (text : String) :
    ((∃ i m, identMatchAt text.data i m) →
      ∃ i m, find_pattern_in_text text = some (String.mk m) ∧
        identMatchAt text.data i m ∧
        ∀ j m2, identMatchAt text.data j m2 → i ≤ j) ∧
    ((¬ ∃ i m, identMatchAt text.data i m) →
      find_pattern_in_text text = none) := by
  constructor
  · rintro ⟨i0, m0, hm0⟩
    cases hs : searchData text.data with
    | none => exact absurd hm0 (searchData_none _ hs i0 m0)
    | some m =>
      rcases searchData_some _ _ hs with ⟨i, hi, hmin⟩
      refine ⟨i, m, ?_, ?_, ?_⟩
      · unfold find_pattern_in_text
        rw [hs]
        rfl
      · exact (identMatchAt_drop _ _ _).mpr (identMatchAt_of_matchAt _ _ hi)
      · intro j m2 hj
        by_contra hji
        push_neg at hji
        exact matchAt_ne_none_of_ident _ _ ((identMatchAt_drop _ _ _).mp hj)
          (hmin j hji)
  · intro hno
    cases hs : searchData text.data with
    | none =>
      unfold find_pattern_in_text
      rw [hs]
      rfl
    | some m =>
      rcases searchData_some _ _ hs with ⟨i, hi, _⟩
      exact absurd
        ⟨i, m, (identMatchAt_drop _ _ _).mpr (identMatchAt_of_matchAt _ _ hi)⟩ hno

/-- C9: a returned match sits somewhere in the text, is greedily maximal
(the character right after it, if any, is not a word character), starts with
the literal `MT_PM_` and is strictly longer than that prefix. -/
theorem claim_C9_find_greedy_maximal (text m : String)
    (h : find_pattern_in_text text = some m) :
    ∃ pre post : List Char,
      text.data = pre ++ m.data ++ post ∧
      (∀ c, post.head? = some c → isWordChar c = false) ∧
      m.data.take 6 = "MT_PM_".data ∧ 6 < m.data.length := by
  unfold find_pattern_in_text at h
  cases hs : searchData text.data with
  | none =>
    rw [hs] at h
    exact Option.noConfusion h
  | some md =>
    rw [hs] at h
    obtain rfl : String.mk md = m := Option.some.inj h
    rcases searchData_some _ _ hs with ⟨i, hi, _⟩
    rcases matchAt_decomp _ _ hi with ⟨post, hsplit, hhead, hm⟩
    have h6 : ("MT_PM_".data).length = 6 := by decide
    have hrun : (List.drop 6 (text.data.drop i)).takeWhile isWordChar ≠ [] :=
      (matchAt_eq_some _ _ hi).2.1
    refine ⟨text.data.take i, post, ?_, hhead, ?_, ?_⟩
    · conv_lhs => rw [← List.take_append_drop i text.data]
      rw [hsplit, List.append_assoc]
    · show md.take 6 = "MT_PM_".data
      rw [hm, List.take_append_of_le_length (by omega),
        List.take_of_length_le (by omega)]
    · show 6 < md.length
      rw [hm, List.length_append, h6]
      have : 0 < ((List.drop 6 (text.data.drop i)).takeWhile isWordChar).length :=
        List.length_pos.mpr hrun
      omega

/-- Witness for C9 at a concrete text: the match of
`"x MT_PM_A1!"` is `"MT_PM_A1"`, located before the `!`. -/
theorem claim_C9_witness :
    ∃ pre post : List Char,
      ("x MT_PM_A1!" : String).data = pre ++ ("MT_PM_A1" : String).data ++ post ∧
      (∀ c, post.head? = some c → isWordChar c = false) ∧
      ("MT_PM_A1" : String).data.take 6 = "MT_PM_".data ∧
      6 < ("MT_PM_A1" : String).data.length :=
  claim_C9_find_greedy_maximal "x MT_PM_A1!" "MT_PM_A1" (by decide)

/-- C8 (amended): a returned match is the literal prefix followed by a
nonempty run of word characters; every ASCII character of the run lies in
`[A-Za-z0-9_]`, but Python's Unicode-aware `\w` also admits non-ASCII word
characters, so the run is not confined to `[A-Za-z0-9_]`. The match sits at
the prefix occurrence, not necessarily at position 0. -/
theorem claim_C8_match_word_chars (text m : String)
    (h : find_pattern_in_text text = some m) :
    (∃ pre post : List Char, text.data = pre ++ m.data ++ post) ∧
    m.data.take 6 = "MT_PM_".data ∧ m.data.drop 6 ≠ [] ∧
    (∀ c ∈ m.data.drop 6, isWordChar c = true) ∧
    (∀ c ∈ m.data.drop 6, c.toNat ≤ 127 → asciiWordChar c = true) := by
  unfold find_pattern_in_text at h
  cases hs : searchData text.data with
  | none =>
    rw [hs] at h
    exact Option.noConfusion h
  | some md =>
    rw [hs] at h
    obtain rfl : String.mk md = m := Option.some.inj h
    rcases searchData_some _ _ hs with ⟨i, hi, _⟩
    rcases matchAt_decomp _ _ hi with ⟨post, hsplit, _, hm⟩
    have h6 : ("MT_PM_".data).length = 6 := by decide
    have hrun : (List.drop 6 (text.data.drop i)).takeWhile isWordChar ≠ [] :=
      (matchAt_eq_some _ _ hi).2.1
    have hdrop : md.drop 6 = (List.drop 6 (text.data.drop i)).takeWhile isWordChar := by
      rw [hm, List.drop_append_of_le_length (by omega),
        List.drop_of_length_le (by omega), List.nil_append]
    refine ⟨⟨text.data.take i, post, ?_⟩, ?_, ?_, ?_, ?_⟩
    · conv_lhs => rw [← List.take_append_drop i text.data]
      rw [hsplit, List.append_assoc]
    · show md.take 6 = "MT_PM_".data
      rw [hm, List.take_append_of_le_length (by omega),
        List.take_of_length_le (by omega)]
    · show md.drop 6 ≠ []
      rw [hdrop]
      exact hrun
    · show ∀ c ∈ md.drop 6, isWordChar c = true
      rw [hdrop]
      intro c hc
      exact List.mem_takeWhile_imp hc
    · show ∀ c ∈ md.drop 6, c.toNat ≤ 127 → asciiWordChar c = true
      rw [hdrop]
      intro c hc hascii
      exact ascii_of_isWordChar c (List.mem_takeWhile_imp hc) hascii

/-- Witness for C8 at a concrete text: the match of `"MT_PM_B2 end"` is
`"MT_PM_B2"`. -/
theorem claim_C8_witness :
    (∃ pre post : List Char,
      ("MT_PM_B2 end" : String).data = pre ++ ("MT_PM_B2" : String).data ++ post) ∧
    ("MT_PM_B2" : String).data.take 6 = "MT_PM_".data ∧
    ("MT_PM_B2" : String).data.drop 6 ≠ [] ∧
    (∀ c ∈ ("MT_PM_B2" : String).data.drop 6, isWordChar c = true) ∧
    (∀ c ∈ ("MT_PM_B2" : String).data.drop 6, c.toNat ≤ 127 →
      asciiWordChar c = true) :=
  claim_C8_match_word_chars "MT_PM_B2 end" "MT_PM_B2" (by decide)

/-- C8 counterexample: `é` is a word character for Python's `\w`, so the
match returned for `"MT_PM_é"` contains a character outside `[A-Za-z0-9_]`. -/
theorem claim_C8_counterexample :
    find_pattern_in_text "MT_PM_é" = some "MT_PM_é" ∧
    'é' ∈ ("MT_PM_é" : String).data.drop 6 ∧
    asciiWordChar 'é' = false := by
  refine ⟨by decide, by decide, by decide⟩

/-! ## The resolver: Nat.repr is injective, candidates are distinct, the
probe loop returns the first free candidate -/

/-- The digits accumulator of `Nat.toDigitsCore` is simply prepended to. -/
theorem toDigitsCore_append (fuel : Nat) : ∀ (n : Nat) (ds : List Char),
    n < fuel →
    Nat.toDigitsCore 10 fuel n ds = Nat.toDigitsCore 10 fuel n [] ++ ds := by
  induction fuel with
  | zero => intro n ds h; omega
  | succ fuel ih =>
    intro n ds h
    simp only [Nat.toDigitsCore]
    by_cases h10 : n / 10 = 0
    · simp [h10]
    · rw [if_neg h10, if_neg h10]
      have hlt : n / 10 < fuel := by
        have h1 : n / 10 < n := Nat.div_lt_self (by omega) (by omega)
        omega
      rw [ih (n / 10) (Nat.digitChar (n % 10) :: ds) hlt,
        ih (n / 10) [Nat.digitChar (n % 10)] hlt, List.append_assoc]
      simp

/-- Decimal digit characters decode back to their value. -/
theorem digitChar_toNat (r : Nat) (h : r < 10) :
    (Nat.digitChar r).toNat - 48 = r := by
  interval_cases r <;> decide

/-- `decDigitsVal` is a left inverse of the digit production loop. -/
theorem decDigitsVal_toDigitsCore (fuel : Nat) : ∀ n, n < fuel →
    decDigitsVal (Nat.toDigitsCore 10 fuel n []) = n := by
  induction fuel with
  | zero => intro n h; omega
  | succ fuel ih =>
    intro n h
    simp only [Nat.toDigitsCore]
    by_cases h10 : n / 10 = 0
    · rw [if_pos h10]
      have hd := digitChar_toNat (n % 10) (by omega)
      simp [decDigitsVal, hd]
      omega
    · rw [if_neg h10]
      have hlt : n / 10 < fuel := by
        have h1 : n / 10 < n := Nat.div_lt_self (by omega) (by omega)
        omega
      rw [toDigitsCore_append fuel (n / 10) [Nat.digitChar (n % 10)] hlt]
      have hcore := ih (n / 10) hlt
      unfold decDigitsVal at hcore ⊢
      rw [List.foldl_append, hcore]
      simp only [List.foldl]
      rw [digitChar_toNat (n % 10) (by omega)]
      omega

/-- The decimal rendering of a natural number determines it. -/
theorem repr_inj (m n : Nat) (h : Nat.repr m = Nat.repr n) : m = n := by
  have hd : Nat.toDigits 10 m = Nat.toDigits 10 n := congrArg String.data h
  have h1 := decDigitsVal_toDigitsCore (m + 1) m (by omega)
  have h2 := decDigitsVal_toDigitsCore (n + 1) n (by omega)
  calc m = decDigitsVal (Nat.toDigits 10 m) := h1.symm
    _ = decDigitsVal (Nat.toDigits 10 n) := by rw [hd]
    _ = n := h2

/-- The character list of the first probed path. -/
theorem candidate_zero_data (dir base ext : String) :
    (candidate dir base ext 0).data =
      dir.data ++ ("/".data ++ (base.data ++ ext.data)) := by
  unfold candidate
  rw [if_pos rfl]
  simp only [pathJoin, String.data_append, List.append_assoc]

/-- The character list of a numbered probed path. -/
theorem candidate_pos_data (dir base ext : String) (k : Nat) (hk : k ≠ 0) :
    (candidate dir base ext k).data =
      dir.data ++ ("/".data ++ (base.data ++ ("_".data ++
        ((Nat.repr k).data ++ ext.data)))) := by
  unfold candidate
  rw [if_neg hk]
  simp only [pathJoin, String.data_append, List.append_assoc]

/-- Distinct counters probe distinct paths. -/
theorem candidate_inj (dir base ext : String) (k1 k2 : Nat)
    (h : candidate dir base ext k1 = candidate dir base ext k2) : k1 = k2 := by
  have hund : ("_".data).length = 1 := rfl
  have h' := congrArg String.data h
  cases k1 with
  | zero =>
    cases k2 with
    | zero => rfl
    | succ j =>
      exfalso
      rw [candidate_zero_data, candidate_pos_data dir base ext (j + 1)
        (Nat.succ_ne_zero j)] at h'
      have h2 := List.append_cancel_left h'
      have h3 := List.append_cancel_left h2
      have h4 := List.append_cancel_left h3
      have hlen := congrArg List.length h4
      simp [List.length_append, hund] at hlen
      omega
  | succ j1 =>
    cases k2 with
    | zero =>
      exfalso
      rw [candidate_pos_data dir base ext (j1 + 1) (Nat.succ_ne_zero j1),
        candidate_zero_data] at h'
      have h2 := List.append_cancel_left h'
      have h3 := List.append_cancel_left h2
      have h4 := List.append_cancel_left h3
      have hlen := congrArg List.length h4
      simp [List.length_append, hund] at hlen
      omega
    | succ j2 =>
      rw [candidate_pos_data dir base ext (j1 + 1) (Nat.succ_ne_zero j1),
        candidate_pos_data dir base ext (j2 + 1) (Nat.succ_ne_zero j2)] at h'
      have h2 := List.append_cancel_left h'
      have h3 := List.append_cancel_left h2
      have h4 := List.append_cancel_left h3
      have h5 := List.append_cancel_left h4
      have h6 := List.append_cancel_right h5
      exact repr_inj _ _ (String.ext h6)

/-- Pigeonhole: a finite filesystem cannot hold every one of the first
`fs.length + 1` pairwise distinct candidate paths. -/
theorem exists_candidate_free (fs : List String) (dir base ext : String) :
    ∃ k, k ≤ fs.length ∧ candidate dir base ext k ∉ fs := by
  by_contra hno
  push_neg at hno
  have hinj : Set.InjOn (candidate dir base ext) ↑(Finset.range (fs.length + 1)) :=
    fun a _ b _ hab => candidate_inj dir base ext a b hab
  have hcard : ((Finset.range (fs.length + 1)).image (candidate dir base ext)).card
      = fs.length + 1 := by
    rw [Finset.card_image_of_injOn hinj, Finset.card_range]
  have hsub : (Finset.range (fs.length + 1)).image (candidate dir base ext)
      ⊆ fs.toFinset := by
    intro x hx
    rcases Finset.mem_image.mp hx with ⟨k, hk, rfl⟩
    rw [List.mem_toFinset]
    have hk2 : k ≤ fs.length := by
      have := Finset.mem_range.mp hk
      omega
    exact hno k hk2
  have hle := Finset.card_le_card hsub
  have hfin := List.toFinset_card_le fs
  omega

/-- The probe loop, started at `k` with enough fuel, returns the least free
candidate at or after `k` when every candidate before it exists. -/
theorem resolveLoop_eq_of_least (fs : List String) (dir base ext : String) :
    ∀ (fuel k m : Nat), k ≤ m → m ≤ k + fuel →
    candidate dir base ext m ∉ fs →
    (∀ j, k ≤ j → j < m → candidate dir base ext j ∈ fs) →
    resolveLoop fs dir base ext k fuel = candidate dir base ext m := by
  intro fuel
  induction fuel with
  | zero =>
    intro k m hkm hmk _ _
    have hkm2 : k = m := by omega
    rw [hkm2]
    rfl
  | succ fuel ih =>
    intro k m hkm hmk hm hless
    simp only [resolveLoop]
    by_cases hk : candidate dir base ext k ∈ fs
    · rw [if_pos hk]
      have hkm2 : k + 1 ≤ m := by
        rcases Nat.eq_or_lt_of_le hkm with heq | hlt
        · rw [heq] at hk
          exact absurd hk hm
        · omega
      exact ih (k + 1) m hkm2 (by omega) hm fun j hj1 hj2 => hless j (by omega) hj2
    · rw [if_neg hk]
      have hmk2 : m = k := by
        by_contra hne
        exact hk (hless k (le_refl k) (by omega))
      rw [hmk2]

/-- C1: `get_unique_destination_path` never returns an existing path; it
returns the plain `directory/base+extension` when that does not exist, and
otherwise the numbered `directory/base_k+extension` for the least counter
k ≥ 1 whose path does not exist, every earlier counter having been probed
and found existing. -/
theorem claim_C1_resolver (fs : List String) (dir base ext : String) :
    get_unique_destination_path fs dir base ext ∉ fs ∧
    (pathJoin dir (base ++ ext) ∉ fs →
      get_unique_destination_path fs dir base ext = pathJoin dir (base ++ ext)) ∧
    (pathJoin dir (base ++ ext) ∈ fs →
      ∃ k : Nat, 0 < k ∧
        get_unique_destination_path fs dir base ext =
          pathJoin dir (base ++ "_" ++ Nat.repr k ++ ext) ∧
        pathJoin dir (base ++ "_" ++ Nat.repr k ++ ext) ∉ fs ∧
        ∀ j : Nat, 0 < j → j < k →
          pathJoin dir (base ++ "_" ++ Nat.repr j ++ ext) ∈ fs) := by
  have hex : ∃ k, candidate dir base ext k ∉ fs := by
    rcases exists_candidate_free fs dir base ext with ⟨k, _, hk⟩
    exact ⟨k, hk⟩
  have hmP : candidate dir base ext (Nat.find hex) ∉ fs := Nat.find_spec hex
  have hmin : ∀ j, j < Nat.find hex → candidate dir base ext j ∈ fs := by
    intro j hj
    by_contra hj2
    exact Nat.find_min hex hj hj2
  have hmle : Nat.find hex ≤ fs.length := by
    rcases exists_candidate_free fs dir base ext with ⟨k, hkle, hk⟩
    exact le_trans (Nat.find_min' hex hk) hkle
  have hresult : get_unique_destination_path fs dir base ext =
      candidate dir base ext (Nat.find hex) := by
    unfold get_unique_destination_path
    exact resolveLoop_eq_of_least fs dir base ext (fs.length + 1) 0 (Nat.find hex)
      (Nat.zero_le _) (by omega) hmP fun j _ hj => hmin j hj
  refine ⟨?_, ?_, ?_⟩
  · rw [hresult]
    exact hmP
  · intro h0
    have hm0 : Nat.find hex = 0 := by
      by_contra hne
      exact h0 (by simpa [candidate] using hmin 0 (by omega))
    rw [hresult, hm0]
    simp [candidate]
  · intro h0
    have hm0 : Nat.find hex ≠ 0 := by
      intro he
      rw [he] at hmP
      exact hmP (by simpa [candidate] using h0)
    refine ⟨Nat.find hex, by omega, ?_, ?_, ?_⟩
    · rw [hresult]
      simp [candidate, hm0]
    · simpa [candidate, hm0] using hmP
    · intro j hj hjm
      have hj0 : j ≠ 0 := by omega
      simpa [candidate, hj0] using hmin j hjm

/-! ## The pipeline: per-item step equations and counter accounting -/

/-- The success flag of one item does not depend on the filesystem. -/
theorem processItem_snd (outDir errDir : String) (fs : List String)
    (it : ImageItem) : (processItem outDir errDir fs it).2 = itemSucceeds it := by
  cases h1 : it.ocr with
  | none => simp [processItem, itemSucceeds, h1]
  | some t =>
    cases h2 : find_pattern_in_text t with
    | none => simp [processItem, itemSucceeds, h1, h2]
    | some pat =>
      cases h3 : it.copyFails <;> simp [processItem, itemSucceeds, h1, h2, h3]

/-- Batch step on a successful item: the success counter moves. -/
theorem processAll_cons_succ (outDir errDir : String) (it : ImageItem)
    (rest : List ImageItem) (fs : List String) (s f : Nat)
    (h : (processItem outDir errDir fs it).2 = true) :
    processAll outDir errDir (it :: rest) fs s f =
      processAll outDir errDir rest (processItem outDir errDir fs it).1 (s + 1) f := by
  simp only [processAll]
  rw [if_pos h]

/-- Batch step on a failing item: the failure counter moves. -/
theorem processAll_cons_fail (outDir errDir : String) (it : ImageItem)
    (rest : List ImageItem) (fs : List String) (s f : Nat)
    (h : (processItem outDir errDir fs it).2 = false) :
    processAll outDir errDir (it :: rest) fs s f =
      processAll outDir errDir rest (processItem outDir errDir fs it).1 s (f + 1) := by
  simp only [processAll]
  rw [if_neg (by rw [h]; exact Bool.false_ne_true)]

/-- After a move, the source path no longer exists (when distinct from the
destination). -/
theorem moveFile_src_not_mem (fs : List String) (src dst : String)
    (hne : src ≠ dst) : src ∉ moveFile fs src dst := by
  intro h
  rcases List.mem_cons.mp h with h1 | h1
  · exact hne h1
  · have := (List.mem_filter.mp h1).2
    simp at this

/-- After a move, the destination path exists. -/
theorem moveFile_dst_mem (fs : List String) (src dst : String) :
    dst ∈ moveFile fs src dst := List.mem_cons_self dst _

/-- The resolver only ever returns one of the candidate paths. -/
theorem resolveLoop_is_candidate (fs : List String) (dir base ext : String) :
    ∀ fuel k, ∃ m, resolveLoop fs dir base ext k fuel = candidate dir base ext m := by
  intro fuel
  induction fuel with
  | zero => intro k; exact ⟨k, rfl⟩
  | succ fuel ih =>
    intro k
    simp only [resolveLoop]
    by_cases hk : candidate dir base ext k ∈ fs
    · rw [if_pos hk]
      exact ih (k + 1)
    · rw [if_neg hk]
      exact ⟨k, rfl⟩

/-- The resolver never returns an existing path. -/
theorem get_unique_not_mem (fs : List String) (dir base ext : String) :
    get_unique_destination_path fs dir base ext ∉ fs := by
  have hex : ∃ k, candidate dir base ext k ∉ fs := by
    rcases exists_candidate_free fs dir base ext with ⟨k, _, hk⟩
    exact ⟨k, hk⟩
  have hmle : Nat.find hex ≤ fs.length := by
    rcases exists_candidate_free fs dir base ext with ⟨k, hkle, hk⟩
    exact le_trans (Nat.find_min' hex hk) hkle
  have hres : get_unique_destination_path fs dir base ext =
      candidate dir base ext (Nat.find hex) := by
    unfold get_unique_destination_path
    refine resolveLoop_eq_of_least fs dir base ext (fs.length + 1) 0 (Nat.find hex)
      (Nat.zero_le _) (by omega) (Nat.find_spec hex) ?_
    intro j _ hj
    by_contra hj2
    exact Nat.find_min hex hj hj2
  rw [hres]
  exact Nat.find_spec hex

/-- The resolver's output is a path directly under the given directory. -/
theorem get_unique_is_join (fs : List String) (dir base ext : String) :
    ∃ nm, get_unique_destination_path fs dir base ext = pathJoin dir nm := by
  rcases resolveLoop_is_candidate fs dir base ext (fs.length + 1) 0 with ⟨m, hm⟩
  unfold get_unique_destination_path
  rw [hm]
  unfold candidate
  by_cases h : m = 0
  · rw [if_pos h]
    exact ⟨base ++ ext, rfl⟩
  · rw [if_neg h]
    exact ⟨base ++ "_" ++ Nat.repr m ++ ext, rfl⟩

/-- C4: per item of the batch. When OCR text was produced, a candidate was
found and the copy does not raise, the source is copied — not moved — to the
collision-free destination resolved under the output directory from the
normalized candidate and the item's own extension, the source still exists
afterwards and the success counter is incremented. When OCR text was
produced but no candidate was found, the source is moved — not copied — to
the error directory under its original filename, so it no longer exists at
its original location, and the failure counter is incremented. -/
theorem claim_C4_place_or_error (outDir errDir : String) (fs : List String)
    (it : ImageItem) (rest : List ImageItem) (s f : Nat)
    (hsrc : it.path ∈ fs) :
    (∀ t pat, it.ocr = some t → find_pattern_in_text t = some pat →
      it.copyFails = false →
      processAll outDir errDir (it :: rest) fs s f =
        processAll outDir errDir rest
          (copyFile fs (get_unique_destination_path fs outDir
            (normalize_pattern pat) (splitextExt it.filename))) (s + 1) f ∧
      get_unique_destination_path fs outDir (normalize_pattern pat)
        (splitextExt it.filename) ∉ fs ∧
      it.path ∈ copyFile fs (get_unique_destination_path fs outDir
        (normalize_pattern pat) (splitextExt it.filename)) ∧
      ∃ nm, get_unique_destination_path fs outDir (normalize_pattern pat)
        (splitextExt it.filename) = pathJoin outDir nm) ∧
    (∀ t, it.ocr = some t → find_pattern_in_text t = none →
      it.path ≠ pathJoin errDir it.filename →
      processAll outDir errDir (it :: rest) fs s f =
        processAll outDir errDir rest
          (moveFile fs it.path (pathJoin errDir it.filename)) s (f + 1) ∧
      it.path ∉ moveFile fs it.path (pathJoin errDir it.filename) ∧
      pathJoin errDir it.filename ∈
        moveFile fs it.path (pathJoin errDir it.filename)) := by
  constructor
  · intro t pat ht hpat hcf
    have hitem : processItem outDir errDir fs it =
        (copyFile fs (get_unique_destination_path fs outDir
          (normalize_pattern pat) (splitextExt it.filename)), true) := by
      simp [processItem, ht, hpat, hcf]
    refine ⟨?_, get_unique_not_mem fs outDir _ _, List.mem_cons_of_mem _ hsrc,
      get_unique_is_join fs outDir _ _⟩
    rw [processAll_cons_succ outDir errDir it rest fs s f (by rw [hitem])]
    rw [hitem]
  · intro t ht hpat hne
    have hitem : processItem outDir errDir fs it =
        (moveFile fs it.path (pathJoin errDir it.filename), false) := by
      simp [processItem, ht, hpat]
    refine ⟨?_, moveFile_src_not_mem fs _ _ hne, moveFile_dst_mem fs _ _⟩
    rw [processAll_cons_fail outDir errDir it rest fs s f (by rw [hitem])]
    rw [hitem]

/-- Witness for C4 at two concrete items: one recognized and copied, one
unrecognized and moved. -/
theorem claim_C4_witness :
    (processAll "o" "e" [⟨"i/a.jpg", "a.jpg", some "MT_PM_A_1", false⟩]
        ["i/a.jpg"] 0 0 =
      processAll "o" "e" []
        (copyFile ["i/a.jpg"] (get_unique_destination_path ["i/a.jpg"] "o"
          (normalize_pattern "MT_PM_A_1") (splitextExt "a.jpg"))) 1 0 ∧
      get_unique_destination_path ["i/a.jpg"] "o"
        (normalize_pattern "MT_PM_A_1") (splitextExt "a.jpg") ∉ ["i/a.jpg"] ∧
      "i/a.jpg" ∈ copyFile ["i/a.jpg"] (get_unique_destination_path ["i/a.jpg"]
        "o" (normalize_pattern "MT_PM_A_1") (splitextExt "a.jpg")) ∧
      ∃ nm, get_unique_destination_path ["i/a.jpg"] "o"
        (normalize_pattern "MT_PM_A_1") (splitextExt "a.jpg") = pathJoin "o" nm) ∧
    (processAll "o" "e" [⟨"i/b.jpg", "b.jpg", some "no code here", false⟩]
        ["i/b.jpg"] 0 0 =
      processAll "o" "e" []
        (moveFile ["i/b.jpg"] "i/b.jpg" (pathJoin "e" "b.jpg")) 0 1 ∧
      "i/b.jpg" ∉ moveFile ["i/b.jpg"] "i/b.jpg" (pathJoin "e" "b.jpg") ∧
      pathJoin "e" "b.jpg" ∈ moveFile ["i/b.jpg"] "i/b.jpg" (pathJoin "e" "b.jpg")) := by
  have hA := (claim_C4_place_or_error "o" "e" ["i/a.jpg"]
    ⟨"i/a.jpg", "a.jpg", some "MT_PM_A_1", false⟩ [] 0 0 (by decide)).1
    "MT_PM_A_1" "MT_PM_A_1" rfl (by decide) rfl
  have hB := (claim_C4_place_or_error "o" "e" ["i/b.jpg"]
    ⟨"i/b.jpg", "b.jpg", some "no code here", false⟩ [] 0 0 (by decide)).2
    "no code here" rfl (by decide) (by decide)
  exact ⟨hA, hB⟩

/-- C5: an exception while extracting text or while copying (the fallible
steps of the item body; the matcher, normalizer and resolver are pure and
total in the embedding) is caught at the item boundary: the item is moved to
the error directory when its source still exists, the move is skipped when
the source is gone, the failure counter is incremented either way, and the
batch goes on to process the remaining items. -/
theorem claim_C5_exception_contained (outDir errDir : String) (fs : List String)
    (it : ImageItem) (rest : List ImageItem) (s f : Nat)
    (hexc : it.ocr = none ∨ ∃ t pat, it.ocr = some t ∧
      find_pattern_in_text t = some pat ∧ it.copyFails = true)
    (hne : it.path ≠ pathJoin errDir it.filename) :
    ∃ fs2, processAll outDir errDir (it :: rest) fs s f =
        processAll outDir errDir rest fs2 s (f + 1) ∧
      (it.path ∈ fs → it.path ∉ fs2 ∧ pathJoin errDir it.filename ∈ fs2) ∧
      (it.path ∉ fs → fs2 = fs) := by
  have hitem : processItem outDir errDir fs it = (errorMove errDir fs it, false) := by
    rcases hexc with h1 | ⟨t, pat, ht, hpat, hcf⟩
    · simp [processItem, h1]
    · simp [processItem, ht, hpat, hcf]
  refine ⟨errorMove errDir fs it, ?_, ?_, ?_⟩
  · rw [processAll_cons_fail outDir errDir it rest fs s f (by rw [hitem])]
    rw [hitem]
  · intro hsrc
    unfold errorMove
    rw [if_pos hsrc]
    exact ⟨moveFile_src_not_mem fs _ _ hne, moveFile_dst_mem fs _ _⟩
  · intro hsrc
    unfold errorMove
    rw [if_neg hsrc]

/-- Witness for C5 at a concrete item whose OCR raises. -/
theorem claim_C5_witness :
    ∃ fs2, processAll "o" "e" [⟨"i/c.jpg", "c.jpg", none, false⟩]
        ["i/c.jpg"] 0 0 = processAll "o" "e" [] fs2 0 1 ∧
      ("i/c.jpg" ∈ (["i/c.jpg"] : List String) →
        "i/c.jpg" ∉ fs2 ∧ pathJoin "e" "c.jpg" ∈ fs2) ∧
      ("i/c.jpg" ∉ (["i/c.jpg"] : List String) → fs2 = ["i/c.jpg"]) :=
  claim_C5_exception_contained "o" "e" ["i/c.jpg"]
    ⟨"i/c.jpg", "c.jpg", none, false⟩ [] 0 0 (Or.inl rfl) (by decide)

/-- Running counters of the batch loop: the running success counter advances
by the number of succeeding items, the running failure counter by the number
of the others. -/
theorem processAll_counts (outDir errDir : String) :
    ∀ (items : List ImageItem) (fs : List String) (s f : Nat),
    (processAll outDir errDir items fs s f).2.1 =
      s + List.countP (fun it => itemSucceeds it) items ∧
    (processAll outDir errDir items fs s f).2.2 =
      f + List.countP (fun it => !itemSucceeds it) items := by
  intro items
  induction items with
  | nil => intro fs s f; simp [processAll]
  | cons it rest ih =>
    intro fs s f
    by_cases hs : itemSucceeds it = true
    · rw [processAll_cons_succ outDir errDir it rest fs s f
        (by rw [processItem_snd]; exact hs)]
      rcases ih (processItem outDir errDir fs it).1 (s + 1) f with ⟨ha, hb⟩
      constructor
      · rw [ha, List.countP_cons]
        simp [hs]
        omega
      · rw [hb, List.countP_cons]
        simp [hs]
    · have hs2 : itemSucceeds it = false := by
        cases h : itemSucceeds it
        · rfl
        · exact absurd h hs
      rw [processAll_cons_fail outDir errDir it rest fs s f
        (by rw [processItem_snd]; exact hs2)]
      rcases ih (processItem outDir errDir fs it).1 s (f + 1) with ⟨ha, hb⟩
      constructor
      · rw [ha, List.countP_cons]
        simp [hs2]
      · rw [hb, List.countP_cons]
        simp [hs2]
        omega

/-- C6: both counters start at zero, each processed item advances exactly one
of them by exactly one, and after the batch the reported pair is
`(M, N - M)` where `M` counts the items that were matched and placed and `N`
is the number of items. -/
theorem claim_C6_counters (outDir errDir : String) (items : List ImageItem)
    (fs : List String) :
    (process_project_folder outDir errDir items fs).2.1 =
      List.countP (fun it => itemSucceeds it) items ∧
    (process_project_folder outDir errDir items fs).2.2 =
      items.length - List.countP (fun it => itemSucceeds it) items ∧
    (process_project_folder outDir errDir items fs).2.1 +
      (process_project_folder outDir errDir items fs).2.2 = items.length ∧
    ∀ (it : ImageItem) (rest : List ImageItem) (fs2 : List String) (s f : Nat),
      ∃ gs ds df, processAll outDir errDir (it :: rest) fs2 s f =
        processAll outDir errDir rest gs (s + ds) (f + df) ∧ ds + df = 1 := by
  have hsplit : ∀ l : List ImageItem,
      List.countP (fun it => itemSucceeds it) l +
        List.countP (fun it => !itemSucceeds it) l = l.length := by
    intro l
    induction l with
    | nil => simp
    | cons a l ih =>
      cases ha : itemSucceeds a <;> simp [List.countP_cons, ha] <;> omega
  rcases processAll_counts outDir errDir items fs 0 0 with ⟨h1, h2⟩
  have hs := hsplit items
  refine ⟨?_, ?_, ?_, ?_⟩
  · unfold process_project_folder
    rw [h1]
    omega
  · unfold process_project_folder
    rw [h2]
    omega
  · unfold process_project_folder
    rw [h1, h2]
    omega
  · intro it rest fs2 s f
    by_cases hsit : itemSucceeds it = true
    · refine ⟨(processItem outDir errDir fs2 it).1, 1, 0, ?_, rfl⟩
      rw [Nat.add_zero]
      exact processAll_cons_succ outDir errDir it rest fs2 s f
        (by rw [processItem_snd]; exact hsit)
    · have hsit2 : itemSucceeds it = false := by
        cases h : itemSucceeds it
        · rfl
        · exact absurd h hsit
      refine ⟨(processItem outDir errDir fs2 it).1, 0, 1, ?_, rfl⟩
      rw [Nat.add_zero]
      exact processAll_cons_fail outDir errDir it rest fs2 s f
        (by rw [processItem_snd]; exact hsit2)
